import Mathlib

/-!
Verification of the change-tracking and patch-reconciliation engine of the
Git Spaces editor extension, shallowly embedded from its TypeScript source
(src/gitOperations.ts, src/hunkManager.ts, src/spaceManager.ts, src/types.ts).

Modelling conventions:
- A JavaScript string is modelled as a list of characters (`Str`).
- A text that the source immediately splits on the newline character
  (diff text fed to `split('\n')`, patch text built one `...\n` piece at a
  time) is modelled by its list of lines, each line being a `Str`.
- External effects (git subprocess calls, the file system, `uuidv4()`,
  `Date.now()`) are passed in as explicit inputs: oracles for the results
  of git queries, an injective id source for `uuidv4`, a number for the
  clock.  A thrown exception is modelled by an explicit error field next
  to the state the method leaves behind.
-/

namespace GitSpaces

/-- A JavaScript string, modelled as its list of characters. -/
abbrev Str := List Char

/-- JS `s.startsWith(p)`. -/
def jsStartsWith (s p : Str) : Bool :=
  p.isPrefixOf s

/-- JS `x || d` where `x` is a possibly missing string: `undefined` and the
empty string are falsy, so both fall through to the default. -/
def jsOrElse (o : Option Str) (d : Str) : Str :=
  match o with
  | none => d
  | some s => if s = [] then d else s

/-- JS `s.split('\n')`: `List.splitOn` has the same semantics, including
`[] ↦ [[]]` for the empty string. -/
def splitNL (s : Str) : List Str :=
  s.splitOn '\n'

/-- JS `lines.join('\n')`. -/
def joinNL (ls : List Str) : Str :=
  List.intercalate ['\n'] ls

/-- Node `path.join(a, b)` for the simple shapes used here: the two pieces
glued with one separator. -/
def pathJoin (a b : Str) : Str :=
  a ++ '/' :: b

/-- Per-file status as reported by `GitOperations.getFileStatus`
(src/gitOperations.ts): `'added' | 'deleted' | 'modified' | 'staged'`. -/
inductive FileStatus where
  | added
  | deleted
  | modified
  | staged
deriving DecidableEq, Repr

/-- The `'branch' | 'temporary'` union of src/types.ts. -/
inductive SpaceType where
  | branch
  | temporary
deriving DecidableEq, Repr

/-- The `Space` record of src/types.ts (the variant matching the embedded
managers: no `isActive` field; `branchName` optional). -/
structure Space where
  id : Str
  name : Str
  goal : Str
  type : SpaceType
  branchName : Option Str
  createdAt : Nat
  lastModified : Nat
deriving DecidableEq, Repr

/-- The `Hunk` record of src/types.ts: `status` is optional, `spaceId` is
the owning group with the empty string meaning unassigned. -/
structure Hunk where
  id : Str
  filePath : Str
  startLine : Nat
  endLine : Nat
  content : Str
  originalContent : Str
  spaceId : Str
  timestamp : Nat
  status : Option FileStatus
deriving DecidableEq, Repr

/-- The fields of `Partial<Hunk>` that `GitOperations.parseDiffToHunks`
fills in and `GitOperations.createPatch` reads. -/
structure RawHunk where
  filePath : Str
  startLine : Nat
  endLine : Nat
  content : Str
  originalContent : Str
deriving DecidableEq, Repr

/-- Projection of a full Hunk onto the fields `createPatch` reads. -/
def Hunk.toRaw (h : Hunk) : RawHunk :=
  { filePath := h.filePath, startLine := h.startLine, endLine := h.endLine,
    content := h.content, originalContent := h.originalContent }

/-! ## GitOperations: the diff parser and the patch synthesizer -/

/-- Maximal run of decimal digits at the front of a string, with the rest:
the behaviour of a greedy `\d+` / `\d*` in the hunk-header regex. -/
def takeDigits : Str → Str × Str
  | [] => ([], [])
  | c :: cs =>
    if c.isDigit then
      let p := takeDigits cs
      (c :: p.1, p.2)
    else ([], c :: cs)

/-- One optional leading comma: the `,?` of the hunk-header regex. -/
def skipComma : Str → Str
  | ',' :: cs => cs
  | cs => cs

/-- The literal ` +` in the middle of the hunk-header regex. -/
def stripSpacePlus : Str → Option Str
  | ' ' :: '+' :: r => some r
  | _ => none

/-- The literal ` @@` closing the hunk-header regex (anything may
follow). -/
def hasSpaceAtAt : Str → Bool
  | ' ' :: '@' :: '@' :: _ => true
  | _ => false

/-- Continuation of the hunk-header regex after its literal `@@ -` head:
`(\d+),?\d* \+(\d+),?(\d*) @@` with anything allowed after the closing
`@@`. -/
def matchHunkHeaderAfterDash (r : Str) : Option (Str × Str × Str) :=
  let p1 := takeDigits r
  if p1.1 = [] then none
  else
    let p2 := takeDigits (skipComma p1.2)
    match stripSpacePlus p2.2 with
    | none => none
    | some r4 =>
      let p3 := takeDigits r4
      if p3.1 = [] then none
      else
        let p4 := takeDigits (skipComma p3.2)
        if hasSpaceAtAt p4.2 then some (p1.1, p3.1, p4.1) else none

/-- The hunk-header regex of `parseDiffToHunks` (src/gitOperations.ts):
`^@@ -(\d+),?\d* \+(\d+),?(\d*) @@`, with anything allowed after the
closing `@@`.  Returns the three captured digit groups (old start, new
start, new count) when the line matches. -/
def matchHunkHeader (l : Str) : Option (Str × Str × Str) :=
  match l with
  | '@' :: '@' :: ' ' :: '-' :: r => matchHunkHeaderAfterDash r
  | _ => none

/-- JS `parseInt` on a string of decimal digits. -/
def parseDigits (d : Str) : Nat :=
  d.foldl (fun a c => 10 * a + (c.toNat - '0'.toNat)) 0

/-- Fuel-driven core of the decimal rendering, structurally recursive so
that concrete patches evaluate inside the kernel. -/
def decDigitsCore : Nat → Nat → Str → Str
  | 0, _, acc => acc
  | fuel + 1, n, acc =>
    if n < 10 then Nat.digitChar n :: acc
    else decDigitsCore fuel (n / 10) (Nat.digitChar (n % 10) :: acc)

/-- Decimal rendering of a natural number, as produced by a JS template
literal such as the one building the `@@` header line. -/
def decDigits (n : Nat) : Str :=
  decDigitsCore (n + 1) n []

/-- Accumulator-free description of the decimal rendering, used by the
proofs. -/
def decDigitsRec (n : Nat) : Str :=
  if n < 10 then [Nat.digitChar n]
  else decDigitsRec (n / 10) ++ [Nat.digitChar (n % 10)]
decreasing_by exact Nat.div_lt_self (by omega) (by omega)

/-- The loop state of `parseDiffToHunks`: the hunks saved so far, the open
hunk region (its `startLine`) if any, the current line counter, and the two
line accumulators. -/
structure PState where
  hunks : List RawHunk
  cur : Option Nat
  currentLine : Nat
  hunkContent : List Str
  originalContent : List Str
deriving DecidableEq, Repr

/-- Saving the open hunk region, as done both when a new `@@` header is
seen and at end of input: kept only when at least one content line
accumulated; `endLine` is the current line counter. -/
def flushHunk (filePath : Str) (s : PState) : List RawHunk :=
  match s.cur with
  | some st =>
    if s.hunkContent ≠ [] then
      s.hunks ++ [{ filePath := filePath, startLine := st, endLine := s.currentLine,
                    content := joinNL s.hunkContent,
                    originalContent := joinNL s.originalContent }]
    else s.hunks
  | none => s.hunks

/-- The body of the `for (const line of lines)` loop of `parseDiffToHunks`:
a header line flushes the open region and opens a new one anchored at the
captured new-start; inside a region a `+` line (not `+++`) goes to
`content` and advances the counter, a `-` line (not `---`) goes to
`originalContent` without advancing, a space line goes to both and
advances; anything else is ignored. -/
def parseStep (filePath : Str) (s : PState) (line : Str) : PState :=
  match matchHunkHeader line with
  | some g =>
    let startLine := parseDigits g.2.1
    { hunks := flushHunk filePath s, cur := some startLine,
      currentLine := startLine, hunkContent := [], originalContent := [] }
  | none =>
    match s.cur with
    | none => s
    | some _ =>
      if jsStartsWith line ['+'] && !jsStartsWith line ['+', '+', '+'] then
        { s with hunkContent := s.hunkContent ++ [line.drop 1],
                 currentLine := s.currentLine + 1 }
      else if jsStartsWith line ['-'] && !jsStartsWith line ['-', '-', '-'] then
        { s with originalContent := s.originalContent ++ [line.drop 1] }
      else if jsStartsWith line [' '] then
        { s with hunkContent := s.hunkContent ++ [line.drop 1],
                 originalContent := s.originalContent ++ [line.drop 1],
                 currentLine := s.currentLine + 1 }
      else s

/-- `GitOperations.parseDiffToHunks(diff, filePath)`: the diff text is
given as its list of newline-separated lines (the TS code first runs
`diff.split('\n')`). -/
def parseDiffToHunks (diffLines : List Str) (filePath : Str) : List RawHunk :=
  flushHunk filePath
    (diffLines.foldl (parseStep filePath)
      { hunks := [], cur := none, currentLine := 0,
        hunkContent := [], originalContent := [] })

/-- One step of grouping hunks per file: append under an existing key or
add a new key at the end, which is how a JS `Map` keeps first-occurrence
key order with per-key insertion order. -/
def insertHunk (groups : List (Str × List RawHunk)) (h : RawHunk) :
    List (Str × List RawHunk) :=
  match groups with
  | [] => [(h.filePath, [h])]
  | (fp, hs) :: rest =>
    if fp = h.filePath then (fp, hs ++ [h]) :: rest
    else (fp, hs) :: insertHunk rest h

/-- The `fileHunks` map built at the top of `createPatch`. -/
def groupByFile (hunks : List RawHunk) : List (Str × List RawHunk) :=
  hunks.foldl insertHunk []

/-- The `@@ -start,oldCount +start,newCount @@` line emitted by
`createPatch`. -/
def hunkHeaderLine (startLine oldCount newCount : Nat) : Str :=
  '@' :: '@' :: ' ' :: '-' ::
    (decDigits startLine ++ ',' ::
      (decDigits oldCount ++ ' ' :: '+' ::
        (decDigits startLine ++ ',' ::
          (decDigits newCount ++ [' ', '@', '@']))))

/-- The per-hunk block emitted by `createPatch`: header line, then every
`originalContent` line prefixed `-`, then every `content` line prefixed
`+`. -/
def hunkBlock (h : RawHunk) : List Str :=
  let originalLines := splitNL h.originalContent
  let newLines := splitNL h.content
  hunkHeaderLine h.startLine originalLines.length newLines.length ::
    (originalLines.map (fun l => '-' :: l) ++ newLines.map (fun l => '+' :: l))

/-- The three per-file header lines emitted by `createPatch`:
`diff --git a/R b/R`, `--- a/R`, `+++ b/R`. -/
def fileHeaderLines (relativePath : Str) : List Str :=
  [ 'd' :: 'i' :: 'f' :: 'f' :: ' ' :: '-' :: '-' :: 'g' :: 'i' :: 't' ::
      ' ' :: 'a' :: '/' :: (relativePath ++ ' ' :: 'b' :: '/' :: relativePath),
    '-' :: '-' :: '-' :: ' ' :: 'a' :: '/' :: relativePath,
    '+' :: '+' :: '+' :: ' ' :: 'b' :: '/' :: relativePath ]

/-- `GitOperations.createPatch(hunks)`: the synthesized patch text, as its
list of lines (the TS code appends each of these followed by a newline).
`rel` stands for `path.relative(this.workspaceRoot, ·)`. -/
def createPatch (rel : Str → Str) (hunks : List RawHunk) : List Str :=
  (groupByFile hunks).flatMap
    (fun g => fileHeaderLines (rel g.1) ++ g.2.flatMap hunkBlock)

/-- Formalisation helper for the round-trip claim: a patch line with its
`@@` line-count fields erased, keeping the two start fields; non-header
lines are kept as they are.  Two patches are equal up to recomputed header
line counts exactly when their normalised line lists are equal. -/
def stripHeaderCounts (l : Str) : Str :=
  match matchHunkHeader l with
  | some g => '@' :: '@' :: ' ' :: '-' :: (g.1 ++ ' ' :: '+' :: (g.2.1 ++ [' ', '@', '@']))
  | none => l

/-! ## HunkManager -/

/-- The role swap done by `HunkManager.unapplyHunks`
(src/hunkManager.ts): each hunk keeps every field except that `content`
and `originalContent` trade places. -/
def reverseHunks (hunks : List Hunk) : List Hunk :=
  hunks.map (fun h => { h with content := h.originalContent, originalContent := h.content })

/-- The patch text that `HunkManager.unapplyHunks(hunks)` hands to
`git apply`: the forward synthesizer run on the role-swapped hunks. -/
def unapplyPatch (rel : Str → Str) (hunks : List Hunk) : List Str :=
  createPatch rel ((reverseHunks hunks).map Hunk.toRaw)

/-- `HunkManager.getHunksForSpace(spaceId)`. -/
def getHunksForSpace (hunks : List Hunk) (spaceId : Str) : List Hunk :=
  hunks.filter (fun h => h.spaceId = spaceId)

/-- `HunkManager.reassignHunks(fromSpaceId, toSpaceId)`: every hunk owned
by the source group is retargeted in place; nothing else changes. -/
def reassignHunks (hunks : List Hunk) (fromSpaceId toSpaceId : Str) : List Hunk :=
  hunks.map (fun h => if h.spaceId = fromSpaceId then { h with spaceId := toSpaceId } else h)

/-- `HunkManager.deleteHunksForSpace(spaceId)`. -/
def deleteHunksForSpace (hunks : List Hunk) (spaceId : Str) : List Hunk :=
  hunks.filter (fun h => ¬ h.spaceId = spaceId)

/-- `HunkManager.detectHunksForDocument(document)` as a registry
transformation.  `diff` is the result of `getDiff(filePath)` as a line
list, `none` when falsy; `fileStatus` is the `getFileStatus` answer; `ids`
supplies the value of the k-th `uuidv4()` call; `now` is `Date.now()`.
The TS code first drops every hunk of the file, then, per parsed hunk,
looks for an existing hunk at the same `(filePath, startLine)` in the
already-filtered list, taking its `id` and `spaceId` with `||` fallbacks.
-/
def detectHunksForDocument (hunks : List Hunk) (filePath : Str)
    (diff : Option (List Str)) (fileStatus : Option FileStatus)
    (ids : Nat → Str) (now : Nat) : List Hunk :=
  match diff with
  | none => hunks.filter (fun h => ¬ h.filePath = filePath)
  | some diffLines =>
    let parsedHunks := parseDiffToHunks diffLines filePath
    let base := hunks.filter (fun h => ¬ h.filePath = filePath)
    (parsedHunks.foldl
      (fun acc p =>
        let existing := acc.1.find? (fun h => h.filePath = p.filePath && h.startLine == p.startLine)
        let h : Hunk :=
          { id := jsOrElse (existing.map Hunk.id) (ids acc.2),
            filePath := p.filePath, startLine := p.startLine, endLine := p.endLine,
            content := p.content, originalContent := p.originalContent,
            spaceId := jsOrElse (existing.map Hunk.spaceId) [],
            timestamp := now,
            status := some (match fileStatus with | some s => s | none => FileStatus.modified) }
        (acc.1 ++ [h], acc.2 + 1))
      (base, 0)).1

/-- The external answers `scanExistingChanges` gets for one changed file:
its `getFileStatus` answer, the `getDiff(·, 'deleted')` text used for a
deleted file (`none` when falsy), the `getFileContent` text used for an
added file, and the regular diff used for a modified file (`none` when the
text is empty or whitespace-only, the `diff && diff.trim().length > 0`
test). -/
structure ScanInfo where
  status : Option FileStatus
  deletedDiff : Option (List Str)
  fileContent : Str
  diff : Option (List Str)
deriving Repr

/-- Inner loop of the modified-file branch of `scanExistingChanges`: each
parsed hunk is added only when no tracked hunk already sits at its
`(filePath, startLine)`. -/
def addParsedHunks (ids : Nat → Str) (now : Nat)
    (acc : List Hunk × Nat) (parsed : List RawHunk) : List Hunk × Nat :=
  parsed.foldl
    (fun acc p =>
      if acc.1.any (fun h => h.filePath = p.filePath && h.startLine == p.startLine) then acc
      else
        (acc.1 ++ [{ id := ids acc.2, filePath := p.filePath, startLine := p.startLine,
                     endLine := p.endLine, content := p.content,
                     originalContent := p.originalContent, spaceId := [],
                     timestamp := now, status := some FileStatus.modified }], acc.2 + 1))
    acc

/-- Per-file body of the `for (const filePath of changedFiles)` loop of
`scanExistingChanges` (the full HunkManager variant): deleted and added
files get one synthetic whole-file hunk if the file is untracked, a
parseable diff goes through `parseDiffToHunks`, and a changed file with no
textual diff gets the whole-file fallback hunk. -/
def scanFile (root : Str) (info : Str → ScanInfo) (ids : Nat → Str) (now : Nat)
    (acc : List Hunk × Nat) (fp : Str) : List Hunk × Nat :=
  let abs := pathJoin root fp
  let i := info abs
  match i.status with
  | some FileStatus.deleted =>
    if acc.1.any (fun h => h.filePath = abs) then acc
    else
      let deletedContent :=
        match i.deletedDiff with
        | some ls =>
          joinNL ((ls.filter (fun l =>
            jsStartsWith l ['-'] && !jsStartsWith l ['-', '-', '-'])).map (fun l => l.drop 1))
        | none => []
      let lineCount := if deletedContent ≠ [] then (splitNL deletedContent).length else 1
      (acc.1 ++ [{ id := ids acc.2, filePath := abs, startLine := 1, endLine := lineCount,
                   content := [],
                   originalContent := jsOrElse (some deletedContent)
                     ('(' :: 'd' :: 'e' :: 'l' :: 'e' :: 't' :: 'e' :: 'd' :: ' ' ::
                      'f' :: 'i' :: 'l' :: 'e' :: [')']),
                   spaceId := [], timestamp := now,
                   status := some FileStatus.deleted }], acc.2 + 1)
  | some FileStatus.added =>
    if acc.1.any (fun h => h.filePath = abs) then acc
    else
      let lineCount := if i.fileContent ≠ [] then (splitNL i.fileContent).length else 1
      (acc.1 ++ [{ id := ids acc.2, filePath := abs, startLine := 1, endLine := lineCount,
                   content := i.fileContent, originalContent := [], spaceId := [],
                   timestamp := now, status := some FileStatus.added }], acc.2 + 1)
  | _ =>
    match i.diff with
    | some diffLines => addParsedHunks ids now acc (parseDiffToHunks diffLines abs)
    | none =>
      if acc.1.any (fun h => h.filePath = abs) then acc
      else
        (acc.1 ++ [{ id := ids acc.2, filePath := abs, startLine := 1, endLine := 1,
                     content := '(' :: 'e' :: 'n' :: 't' :: 'i' :: 'r' :: 'e' :: ' ' ::
                       'f' :: 'i' :: 'l' :: 'e' :: [')'],
                     originalContent := [], spaceId := [], timestamp := now,
                     status := some FileStatus.modified }], acc.2 + 1)

/-- `HunkManager.scanExistingChanges()` (the full variant) as a registry
transformation.  With no uncommitted changes it keeps exactly the hunks
with a non-empty `spaceId`; otherwise it first drops every hunk whose file
is not among the changed files (joined against the workspace root) and
then walks the changed files. -/
def scanExistingChanges (hunks : List Hunk) (hasChanges : Bool)
    (changedFiles : List Str) (root : Str) (info : Str → ScanInfo)
    (ids : Nat → Str) (now : Nat) : List Hunk :=
  if !hasChanges then hunks.filter (fun h => ¬ h.spaceId = [])
  else
    let changedAbs := changedFiles.map (pathJoin root)
    let kept := hunks.filter (fun h => changedAbs.contains h.filePath)
    (changedFiles.foldl (scanFile root info ids now) (kept, 0)).1

/-- Outcome of `HunkManager.removeHunk`: the registry it leaves behind and
the error it rethrows, if any. -/
structure RemoveResult where
  hunks : List Hunk
  error : Option Str
deriving DecidableEq, Repr

/-- `HunkManager.removeHunk(hunkId, discardChanges)`: a missing hunk is a
no-op; with `discardChanges` the working-tree mutation
(`gitOps.discardChanges`) runs first and a failure there propagates before
the registry is touched; only after it succeeds is the hunk dropped. -/
def removeHunk (hunks : List Hunk) (hunkId : Str) (discardChanges : Bool)
    (discardResult : Except Str Unit) : RemoveResult :=
  match hunks.find? (fun h => h.id = hunkId) with
  | none => { hunks := hunks, error := none }
  | some _ =>
    if discardChanges then
      match discardResult with
      | Except.error e => { hunks := hunks, error := some e }
      | Except.ok _ => { hunks := hunks.filter (fun h => ¬ h.id = hunkId), error := none }
    else { hunks := hunks.filter (fun h => ¬ h.id = hunkId), error := none }

/-! ## SpaceManager -/

/-- `SpaceManager.createSpace(name, goal, type, branchName)`: a
branch-typed space with a truthy branch name takes the branch name as
display name; `branchName` is stored only for branch-typed spaces; the new
record is pushed at the end of the list. -/
def createSpace (spaces : List Space) (name goal : Str) (type : SpaceType)
    (branchName : Option Str) (newId : Str) (now : Nat) : List Space :=
  let spaceName :=
    match type, branchName with
    | SpaceType.branch, some b => if b = [] then name else b
    | _, _ => name
  spaces ++ [{ id := newId, name := spaceName, goal := goal, type := type,
               branchName := (match type with | SpaceType.branch => branchName | _ => none),
               createdAt := now, lastModified := now }]

/-- `SpaceManager.initialize()` after `storage.loadSpaces()` returned
`loaded`: an empty list is seeded with the default Main space. -/
def initializeSpaces (loaded : List Space) (newId : Str) (now : Nat) : List Space :=
  if loaded.length = 0 then
    createSpace loaded
      ['M', 'a', 'i', 'n']
      ['D', 'e', 'f', 'a', 'u', 'l', 't', ' ', 'w', 'o', 'r', 'k', 's', 'p', 'a', 'c', 'e']
      SpaceType.temporary none newId now
  else loaded

/-- What the user chose at the quick-pick prompts of
`SpaceManager.deleteSpace`: cancelled the first prompt, chose to discard,
or chose to move (possibly cancelling the target prompt). -/
inductive DeleteDisposition where
  | cancelled
  | discard
  | move (target : Option Str)
deriving DecidableEq, Repr

/-- `SpaceManager.deleteSpace(spaceId)` over the pair (space registry,
hunk registry): a missing space is a no-op; a space that owns hunks needs
a disposition, with either cancellation returning before any mutation; the
space itself is dropped last. -/
def deleteSpace (spaces : List Space) (hunks : List Hunk) (spaceId : Str)
    (disp : DeleteDisposition) : List Space × List Hunk :=
  match spaces.find? (fun s => s.id = spaceId) with
  | none => (spaces, hunks)
  | some _ =>
    let owned := getHunksForSpace hunks spaceId
    if owned.length > 0 then
      match disp with
      | DeleteDisposition.cancelled => (spaces, hunks)
      | DeleteDisposition.move none => (spaces, hunks)
      | DeleteDisposition.move (some t) =>
        (spaces.filter (fun s => ¬ s.id = spaceId), reassignHunks hunks spaceId t)
      | DeleteDisposition.discard =>
        (spaces.filter (fun s => ¬ s.id = spaceId), deleteHunksForSpace hunks spaceId)
    else (spaces.filter (fun s => ¬ s.id = spaceId), hunks)

/-- A call `switchSpace` makes into GitOperations: a branch checkout or a
`git apply` of a synthesized patch. -/
inductive GitEvent where
  | checkout (branch : Str)
  | applyPatch (patch : List Str)
deriving DecidableEq, Repr

/-- Outcome of `SpaceManager.switchSpace`: the space registry it leaves
behind, the ordered trace of git calls it made, and the error it threw, if
any. -/
structure SwitchResult where
  spaces : List Space
  trace : List GitEvent
  error : Option Str
deriving DecidableEq, Repr

/-- The in-place `targetSpace.lastModified = Date.now()` mutation: it hits
the object `find` returned, the first space with the target id. -/
def stampFirst (spaces : List Space) (spaceId : Str) (now : Nat) : List Space :=
  match spaces with
  | [] => []
  | s :: rest =>
    if s.id = spaceId then { s with lastModified := now } :: rest
    else s :: stampFirst rest spaceId now

/-- Tail of `switchSpace` after the branch step: apply the target hunks if
there are any (a conflict there is caught, logged and ignored — the
last-applied-wins policy, which is why `applyOk` does not influence the
result), then update the lastModified stamp of the first space with the
target id and save. -/
def switchSpaceApply (spaces : List Space) (hunks : List Hunk) (rel : Str → Str)
    (spaceId : Str) (applyOk : Bool) (now : Nat) (trace : List GitEvent) : SwitchResult :=
  let targetHunks := getHunksForSpace hunks spaceId
  let trace :=
    if targetHunks.length > 0 then
      trace ++ [GitEvent.applyPatch (createPatch rel (targetHunks.map Hunk.toRaw))]
    else trace
  let _ := applyOk
  { spaces := stampFirst spaces spaceId now, trace := trace, error := none }

/-- `SpaceManager.switchSpace(spaceId)`: an unknown id throws; a
branch-typed target with a truthy branch name is checked out first, a
checkout failure showing an error message and returning with nothing else
done; then the target hunks are applied and the target stamped. -/
def switchSpace (spaces : List Space) (hunks : List Hunk) (rel : Str → Str)
    (spaceId : Str) (checkoutOk applyOk : Bool) (now : Nat) : SwitchResult :=
  match spaces.find? (fun s => s.id = spaceId) with
  | none =>
    { spaces := spaces, trace := [],
      error := some ('S' :: 'p' :: 'a' :: 'c' :: 'e' :: ' ' :: 'n' :: 'o' :: 't' ::
                     ' ' :: 'f' :: 'o' :: 'u' :: 'n' :: ['d']) }
  | some target =>
    match target.type, target.branchName with
    | SpaceType.branch, some b =>
      if b = [] then switchSpaceApply spaces hunks rel spaceId applyOk now []
      else if checkoutOk then
        switchSpaceApply spaces hunks rel spaceId applyOk now [GitEvent.checkout b]
      else { spaces := spaces, trace := [GitEvent.checkout b], error := none }
    | _, _ => switchSpaceApply spaces hunks rel spaceId applyOk now []

/-! ## Sample inputs used by witnesses and concrete evaluations -/

/-- A tracked hunk used by concrete evaluations. -/
def sampleHunkA : Hunk :=
  { id := ['h'], filePath := ['f'], startLine := 1, endLine := 2, content := ['x'],
    originalContent := ['y'], spaceId := ['s'], timestamp := 0,
    status := some FileStatus.modified }

/-- A temporary space named A, owning `hunkH1`. -/
def spaceA : Space :=
  { id := ['a'], name := ['A'], goal := [], type := SpaceType.temporary, branchName := none,
    createdAt := 0, lastModified := 0 }

/-- A branch space linked to feat/x, owning `hunkH2`. -/
def spaceB : Space :=
  { id := ['b'], name := "feat/x".toList, goal := [], type := SpaceType.branch,
    branchName := some ("feat/x".toList), createdAt := 0, lastModified := 0 }

/-- A hunk assigned to space A. -/
def hunkH1 : Hunk :=
  { id := ['1'], filePath := ['f'], startLine := 1, endLine := 1, content := "n1".toList,
    originalContent := "o1".toList, spaceId := ['a'], timestamp := 0, status := none }

/-- A hunk assigned to space B. -/
def hunkH2 : Hunk :=
  { id := ['2'], filePath := ['g'], startLine := 2, endLine := 2, content := "n2".toList,
    originalContent := "o2".toList, spaceId := ['b'], timestamp := 0, status := none }

/-- A tracked hunk at (f, line 10) assigned to group g, for the rescan
identity check. -/
def trackedHunk : Hunk :=
  { id := ['A'], filePath := ['f'], startLine := 10, endLine := 11, content := ['x'],
    originalContent := ['y'], spaceId := ['g'], timestamp := 0,
    status := some FileStatus.modified }

/-- Fresh diff lines for the same file: still one hunk at line 10, with
changed content. -/
def rescanDiffLines : List Str :=
  ["@@ -10,1 +10,1 @@".toList, "-y".toList, "+z".toList]

/-- A scan oracle reporting nothing for every file. -/
def emptyScanInfo : ScanInfo :=
  { status := none, deletedDiff := none, fileContent := [], diff := none }

/-- A small valid unified diff containing a context line, for the
round-trip counterexample. -/
def contextDiffLines : List Str :=
  ["diff --git a/f b/f".toList, "--- a/f".toList, "+++ b/f".toList,
   "@@ -1,2 +1,2 @@".toList, " ctx".toList, "-old".toList, "+new".toList]

/-! ## General lemmas -/

theorem jsStartsWith_single {l : Str} {c : Char} (h : jsStartsWith l [c] = true) :
    ∃ t, l = c :: t := by
  cases l with
  | nil => simp [jsStartsWith, List.isPrefixOf] at h
  | cons a t =>
    simp [jsStartsWith, List.isPrefixOf] at h
    exact ⟨t, by rw [h]⟩

theorem matchHunkHeader_space (t : Str) : matchHunkHeader (' ' :: t) = none := rfl

theorem matchHunkHeader_plus (t : Str) : matchHunkHeader ('+' :: t) = none := rfl

theorem matchHunkHeader_minus (t : Str) : matchHunkHeader ('-' :: t) = none := rfl

theorem reverseHunks_reverseHunks (hunks : List Hunk) :
    reverseHunks (reverseHunks hunks) = hunks := by
  induction hunks with
  | nil => rfl
  | cons h t ih =>
    show _ :: reverseHunks (reverseHunks t) = _
    rw [ih]

theorem getHunksForSpace_reassign (hunks : List Hunk) (f t : Str) (h : ¬ t = f) :
    getHunksForSpace (reassignHunks hunks f t) f = [] := by
  induction hunks with
  | nil => rfl
  | cons x xs ih =>
    by_cases hx : x.spaceId = f <;>
      simpa [reassignHunks, getHunksForSpace, hx, h] using ih

theorem getHunksForSpace_delete (hunks : List Hunk) (f : Str) :
    getHunksForSpace (deleteHunksForSpace hunks f) f = [] := by
  induction hunks with
  | nil => rfl
  | cons x xs ih =>
    by_cases hx : x.spaceId = f <;>
      simpa [deleteHunksForSpace, getHunksForSpace, hx] using ih

theorem flushHunk_filePath (fp : Str) (s : PState)
    (hs : ∀ r ∈ s.hunks, r.filePath = fp) :
    ∀ r ∈ flushHunk fp s, r.filePath = fp := by
  intro r hr
  unfold flushHunk at hr
  split at hr
  · split_ifs at hr
    · rcases List.mem_append.mp hr with h1 | h2
      · exact hs r h1
      · simp at h2
        rw [h2]
    · exact hs r hr
  · exact hs r hr

theorem parseStep_filePath (fp : Str) (s : PState) (line : Str)
    (hs : ∀ r ∈ s.hunks, r.filePath = fp) :
    ∀ r ∈ (parseStep fp s line).hunks, r.filePath = fp := by
  intro r hr
  unfold parseStep at hr
  cases hmh : matchHunkHeader line with
  | some g =>
    rw [hmh] at hr
    exact flushHunk_filePath fp s hs r hr
  | none =>
    rw [hmh] at hr
    cases hc : s.cur with
    | none => rw [hc] at hr; exact hs r hr
    | some st =>
      rw [hc] at hr
      split_ifs at hr <;> exact hs r hr

theorem parseFold_filePath (fp : Str) : ∀ (lines : List Str) (s : PState),
    (∀ r ∈ s.hunks, r.filePath = fp) →
    ∀ r ∈ (lines.foldl (parseStep fp) s).hunks, r.filePath = fp := by
  intro lines
  induction lines with
  | nil => intro s hs; exact hs
  | cons l rest ih =>
    intro s hs
    exact ih (parseStep fp s l) (parseStep_filePath fp s l hs)

theorem parseDiffToHunks_filePath (dl : List Str) (fp : Str) :
    ∀ r ∈ parseDiffToHunks dl fp, r.filePath = fp := by
  intro r hr
  unfold parseDiffToHunks at hr
  exact flushHunk_filePath fp _ (parseFold_filePath fp dl _ (by simp)) r hr



theorem addParsedHunks_paths (A : List Str) (ids : Nat → Str) (now : Nat) :
    ∀ (parsed : List RawHunk) (acc : List Hunk × Nat),
    (∀ x ∈ acc.1, x.filePath ∈ A) → (∀ p ∈ parsed, p.filePath ∈ A) →
    ∀ x ∈ (addParsedHunks ids now acc parsed).1, x.filePath ∈ A := by
  intro parsed
  induction parsed with
  | nil => intro acc hacc _; exact hacc
  | cons p ps ih =>
    intro acc hacc hp
    have hstep : ∀ x ∈ (addParsedHunks ids now acc [p]).1, x.filePath ∈ A := by
      intro x hx
      unfold addParsedHunks at hx
      simp only [List.foldl_cons, List.foldl_nil] at hx
      split_ifs at hx
      · exact hacc x hx
      · rcases List.mem_append.mp hx with h1 | h2
        · exact hacc x h1
        · simp at h2
          rw [h2]
          exact hp p (by simp)
    have := ih (addParsedHunks ids now acc [p]) hstep
      (fun q hq => hp q (List.mem_cons_of_mem p hq))
    intro x hx
    apply this
    unfold addParsedHunks at hx ⊢
    simpa using hx

theorem mem_append_single_path (A : List Str) (l : List Hunk) (y x : Hunk)
    (hx : x ∈ l ++ [y]) (hl : ∀ z ∈ l, z.filePath ∈ A) (hy : y.filePath ∈ A) :
    x.filePath ∈ A := by
  rcases List.mem_append.mp hx with h1 | h2
  · exact hl x h1
  · simp at h2
    rw [h2]
    exact hy

theorem scanFile_paths (A : List Str) (root : Str) (info : Str → ScanInfo)
    (ids : Nat → Str) (now : Nat) (acc : List Hunk × Nat) (fp : Str)
    (hfp : pathJoin root fp ∈ A) (hacc : ∀ x ∈ acc.1, x.filePath ∈ A) :
    ∀ x ∈ (scanFile root info ids now acc fp).1, x.filePath ∈ A := by
  intro x hx
  unfold scanFile at hx
  dsimp only at hx
  split at hx
  · split_ifs at hx <;>
      first
      | exact hacc x hx
      | exact mem_append_single_path A acc.1 _ x hx hacc hfp
  · split_ifs at hx <;>
      first
      | exact hacc x hx
      | exact mem_append_single_path A acc.1 _ x hx hacc hfp
  · split at hx
    · rename_i diffLines hdiff
      refine addParsedHunks_paths A ids now _ acc hacc ?_ x hx
      intro p hp
      have := parseDiffToHunks_filePath diffLines (pathJoin root fp) p hp
      rw [this]
      exact hfp
    · split_ifs at hx <;>
        first
        | exact hacc x hx
        | exact mem_append_single_path A acc.1 _ x hx hacc hfp

theorem scanFold_paths (A : List Str) (root : Str) (info : Str → ScanInfo)
    (ids : Nat → Str) (now : Nat) :
    ∀ (fs : List Str) (acc : List Hunk × Nat),
    (∀ fp ∈ fs, pathJoin root fp ∈ A) → (∀ x ∈ acc.1, x.filePath ∈ A) →
    ∀ x ∈ (fs.foldl (scanFile root info ids now) acc).1, x.filePath ∈ A := by
  intro fs
  induction fs with
  | nil => intro acc _ hacc; exact hacc
  | cons fp rest ih =>
    intro acc hfs hacc
    exact ih (scanFile root info ids now acc fp)
      (fun q hq => hfs q (List.mem_cons_of_mem fp hq))
      (scanFile_paths A root info ids now acc fp (hfs fp (by simp)) hacc)

theorem decDigitsCore_eq : ∀ (fuel n : Nat) (acc : Str), n < fuel →
    decDigitsCore fuel n acc = decDigitsRec n ++ acc := by
  intro fuel
  induction fuel with
  | zero => intro n acc h; omega
  | succ f ih =>
    intro n acc h
    by_cases h10 : n < 10
    · rw [decDigitsCore, if_pos h10, decDigitsRec, if_pos h10]
      rfl
    · have hdiv : n / 10 < n := Nat.div_lt_self (by omega) (by omega)
      rw [decDigitsCore, if_neg h10, decDigitsRec, if_neg h10,
        ih (n / 10) _ (by omega)]
      simp

theorem decDigits_eq (n : Nat) : decDigits n = decDigitsRec n := by
  rw [decDigits, decDigitsCore_eq (n + 1) n [] (by omega)]
  simp

theorem decDigitsRec_digits (n : Nat) : ∀ c ∈ decDigitsRec n, c.isDigit = true := by
  induction n using Nat.strongRecOn with
  | _ n ih =>
    by_cases h10 : n < 10
    · rw [decDigitsRec, if_pos h10]
      intro c hc
      simp at hc
      rw [hc]
      exact (by decide : ∀ d ∈ List.range 10, (Nat.digitChar d).isDigit = true) n
        (List.mem_range.mpr h10)
    · rw [decDigitsRec, if_neg h10]
      intro c hc
      rcases List.mem_append.mp hc with h1 | h2
      · exact ih (n / 10) (Nat.div_lt_self (by omega) (by omega)) c h1
      · simp at h2
        rw [h2]
        exact (by decide : ∀ d ∈ List.range 10, (Nat.digitChar d).isDigit = true) (n % 10)
          (List.mem_range.mpr (Nat.mod_lt n (by omega)))

theorem decDigitsRec_ne_nil (n : Nat) : decDigitsRec n ≠ [] := by
  by_cases h10 : n < 10
  · rw [decDigitsRec, if_pos h10]
    simp
  · rw [decDigitsRec, if_neg h10]
    simp

theorem parseDigits_append_single (a : Str) (c : Char) :
    parseDigits (a ++ [c]) = 10 * parseDigits a + (c.toNat - '0'.toNat) := by
  simp [parseDigits, List.foldl_append]

theorem parseDigits_decDigitsRec (n : Nat) : parseDigits (decDigitsRec n) = n := by
  induction n using Nat.strongRecOn with
  | _ n ih =>
    by_cases h10 : n < 10
    · rw [decDigitsRec, if_pos h10]
      have : parseDigits [Nat.digitChar n] = n :=
        (by decide : ∀ d ∈ List.range 10, parseDigits [Nat.digitChar d] = d) n
          (List.mem_range.mpr h10)
      exact this
    · rw [decDigitsRec, if_neg h10, parseDigits_append_single,
        ih (n / 10) (Nat.div_lt_self (by omega) (by omega))]
      have hmod : (Nat.digitChar (n % 10)).toNat - '0'.toNat = n % 10 :=
        (by decide : ∀ d ∈ List.range 10, (Nat.digitChar d).toNat - '0'.toNat = d) (n % 10)
          (List.mem_range.mpr (Nat.mod_lt n (by omega)))
      rw [hmod]
      omega

theorem takeDigits_append (ds rest : Str) (hds : ∀ c ∈ ds, c.isDigit = true)
    (hrest : ∀ c t, rest = c :: t → c.isDigit = false) :
    takeDigits (ds ++ rest) = (ds, rest) := by
  induction ds with
  | nil =>
    simp only [List.nil_append]
    cases rest with
    | nil => rfl
    | cons c t =>
      rw [takeDigits, if_neg (by rw [hrest c t rfl]; simp)]
  | cons d ds2 ih =>
    have hd : d.isDigit = true := hds d (by simp)
    rw [List.cons_append, takeDigits, if_pos hd,
      ih (fun c hc => hds c (List.mem_cons_of_mem d hc))]

theorem skipComma_comma (cs : Str) : skipComma (',' :: cs) = cs := rfl

theorem matchHunkHeader_cons (r : Str) :
    matchHunkHeader ('@' :: '@' :: ' ' :: '-' :: r) = matchHunkHeaderAfterDash r := rfl

theorem stripSpacePlus_eq (r : Str) : stripSpacePlus (' ' :: '+' :: r) = some r := rfl

theorem hasSpaceAtAt_eq (t : Str) : hasSpaceAtAt (' ' :: '@' :: '@' :: t) = true := rfl

theorem matchHunkHeader_headerLine (st oc nc : Nat) :
    matchHunkHeader (hunkHeaderLine st oc nc) =
      some (decDigits st, decDigits st, decDigits nc) := by
  have hdig : ∀ m : Nat, ∀ c ∈ decDigits m, c.isDigit = true := by
    intro m
    rw [decDigits_eq]
    exact decDigitsRec_digits m
  have hne : ∀ m : Nat, decDigits m ≠ [] := by
    intro m
    rw [decDigits_eq]
    exact decDigitsRec_ne_nil m
  have ht1 : takeDigits (decDigits st ++ ',' :: (decDigits oc ++ ' ' :: '+' ::
      (decDigits st ++ ',' :: (decDigits nc ++ [' ', '@', '@'])))) =
      (decDigits st, ',' :: (decDigits oc ++ ' ' :: '+' ::
      (decDigits st ++ ',' :: (decDigits nc ++ [' ', '@', '@'])))) :=
    takeDigits_append _ _ (hdig st) (by intro c t h; cases h; rfl)
  have ht2 : takeDigits (decDigits oc ++ ' ' :: '+' ::
      (decDigits st ++ ',' :: (decDigits nc ++ [' ', '@', '@']))) =
      (decDigits oc, ' ' :: '+' :: (decDigits st ++ ',' :: (decDigits nc ++ [' ', '@', '@']))) :=
    takeDigits_append _ _ (hdig oc) (by intro c t h; cases h; rfl)
  have ht3 : takeDigits (decDigits st ++ ',' :: (decDigits nc ++ [' ', '@', '@'])) =
      (decDigits st, ',' :: (decDigits nc ++ [' ', '@', '@'])) :=
    takeDigits_append _ _ (hdig st) (by intro c t h; cases h; rfl)
  have ht4 : takeDigits (decDigits nc ++ [' ', '@', '@']) =
      (decDigits nc, [' ', '@', '@']) :=
    takeDigits_append _ _ (hdig nc) (by intro c t h; cases h; rfl)
  rw [hunkHeaderLine, matchHunkHeader_cons]
  unfold matchHunkHeaderAfterDash
  rw [ht1]
  dsimp only
  rw [if_neg (hne st), skipComma_comma, ht2]
  dsimp only
  rw [stripSpacePlus_eq]
  dsimp only
  rw [ht3]
  dsimp only
  rw [if_neg (hne st), skipComma_comma, ht4, hasSpaceAtAt_eq, if_pos rfl]



theorem splitNL_ne_nil (s : Str) : splitNL s ≠ [] :=
  List.splitOnP_ne_nil _ s

theorem joinNL_splitNL (s : Str) : joinNL (splitNL s) = s :=
  List.intercalate_splitOn s '\n'

theorem parseDigits_decDigits (n : Nat) : parseDigits (decDigits n) = n := by
  rw [decDigits_eq]
  exact parseDigits_decDigitsRec n

theorem matchHunkHeader_d (t : Str) : matchHunkHeader ('d' :: t) = none := rfl

theorem parseStep_nocur (fp : Str) (s : PState) (l : Str) (hcur : s.cur = none)
    (hhdr : matchHunkHeader l = none) : parseStep fp s l = s := by
  simp [parseStep, hhdr, hcur]

theorem parseStep_minus (fp : Str) (s : PState) (l : Str) (st : Nat)
    (hcur : s.cur = some st) (hl : ['-', '-'].isPrefixOf l = false) :
    parseStep fp s ('-' :: l) = { s with originalContent := s.originalContent ++ [l] } := by
  have h3 : jsStartsWith ('-' :: l) ['-', '-', '-'] = false := by
    simpa [jsStartsWith, List.isPrefixOf] using hl
  have h1 : jsStartsWith ('-' :: l) ['+'] = false := by
    simp [jsStartsWith, List.isPrefixOf]
  have h2 : jsStartsWith ('-' :: l) ['-'] = true := by
    simp [jsStartsWith, List.isPrefixOf]
  simp [parseStep, matchHunkHeader_minus, hcur, h1, h2, h3]

theorem parseStep_plus (fp : Str) (s : PState) (l : Str) (st : Nat)
    (hcur : s.cur = some st) (hl : ['+', '+'].isPrefixOf l = false) :
    parseStep fp s ('+' :: l) =
      { s with hunkContent := s.hunkContent ++ [l], currentLine := s.currentLine + 1 } := by
  have h3 : jsStartsWith ('+' :: l) ['+', '+', '+'] = false := by
    simpa [jsStartsWith, List.isPrefixOf] using hl
  have h1 : jsStartsWith ('+' :: l) ['+'] = true := by
    simp [jsStartsWith, List.isPrefixOf]
  simp [parseStep, matchHunkHeader_plus, hcur, h1, h3]

theorem foldl_minus (fp : Str) : ∀ (ls : List Str) (s : PState) (st : Nat),
    s.cur = some st → (∀ l ∈ ls, ['-', '-'].isPrefixOf l = false) →
    List.foldl (parseStep fp) s (ls.map (fun l => '-' :: l)) =
      { s with originalContent := s.originalContent ++ ls } := by
  intro ls
  induction ls with
  | nil => intro s st hcur _; simp
  | cons l rest ih =>
    intro s st hcur hls
    rw [List.map_cons, List.foldl_cons, parseStep_minus fp s l st hcur (hls l (by simp))]
    rw [ih { s with originalContent := s.originalContent ++ [l] } st (by exact hcur)
      (fun q hq => hls q (List.mem_cons_of_mem l hq))]
    simp

theorem foldl_plus (fp : Str) : ∀ (ls : List Str) (s : PState) (st : Nat),
    s.cur = some st → (∀ l ∈ ls, ['+', '+'].isPrefixOf l = false) →
    List.foldl (parseStep fp) s (ls.map (fun l => '+' :: l)) =
      { s with hunkContent := s.hunkContent ++ ls,
               currentLine := s.currentLine + ls.length } := by
  intro ls
  induction ls with
  | nil => intro s st hcur _; simp
  | cons l rest ih =>
    intro s st hcur hls
    rw [List.map_cons, List.foldl_cons, parseStep_plus fp s l st hcur (hls l (by simp))]
    rw [ih { s with hunkContent := s.hunkContent ++ [l],
                    currentLine := s.currentLine + 1 } st (by exact hcur)
      (fun q hq => hls q (List.mem_cons_of_mem l hq))]
    simp
    omega



theorem foldl_block (fp : Str) (s : PState) (h : RawHunk)
    (hpp : ∀ l ∈ splitNL h.content, ['+', '+'].isPrefixOf l = false)
    (hmm : ∀ l ∈ splitNL h.originalContent, ['-', '-'].isPrefixOf l = false) :
    List.foldl (parseStep fp) s (hunkBlock h) =
      { hunks := flushHunk fp s, cur := some h.startLine,
        currentLine := h.startLine + (splitNL h.content).length,
        hunkContent := splitNL h.content,
        originalContent := splitNL h.originalContent } := by
  rw [hunkBlock]
  rw [List.foldl_cons]
  have hstep : parseStep fp s
      (hunkHeaderLine h.startLine (splitNL h.originalContent).length
        (splitNL h.content).length) =
      { hunks := flushHunk fp s, cur := some h.startLine, currentLine := h.startLine,
        hunkContent := [], originalContent := [] } := by
    rw [parseStep, matchHunkHeader_headerLine]
    dsimp only
    rw [parseDigits_decDigits]
  rw [hstep, List.foldl_append]
  rw [foldl_minus fp (splitNL h.originalContent) _ h.startLine rfl hmm]
  rw [foldl_plus fp (splitNL h.content) _ h.startLine (by rfl) hpp]
  simp

theorem flushHunk_state (fp : Str) (hk : List RawHunk) (st cl : Nat) (hc oc : List Str)
    (hne : hc ≠ []) :
    flushHunk fp { hunks := hk, cur := some st, currentLine := cl,
                   hunkContent := hc, originalContent := oc } =
      hk ++ [({ filePath := fp, startLine := st, endLine := cl,
                content := joinNL hc, originalContent := joinNL oc } : RawHunk)] := by
  rw [flushHunk]
  dsimp only
  rw [if_pos hne]

theorem foldl_blocks (fp : Str) : ∀ (rs : List RawHunk) (s : PState),
    (∀ h ∈ rs, ∀ l ∈ splitNL h.content, ['+', '+'].isPrefixOf l = false) →
    (∀ h ∈ rs, ∀ l ∈ splitNL h.originalContent, ['-', '-'].isPrefixOf l = false) →
    flushHunk fp (List.foldl (parseStep fp) s (rs.flatMap hunkBlock)) =
      flushHunk fp s ++ rs.map (fun h =>
        ({ filePath := fp, startLine := h.startLine,
           endLine := h.startLine + (splitNL h.content).length,
           content := h.content, originalContent := h.originalContent } : RawHunk)) := by
  intro rs
  induction rs with
  | nil => intro s _ _; simp
  | cons h t ih =>
    intro s hpp hmm
    rw [List.flatMap_cons, List.foldl_append]
    rw [foldl_block fp s h (hpp h (by simp)) (hmm h (by simp))]
    rw [ih _ (fun q hq => hpp q (List.mem_cons_of_mem h hq))
      (fun q hq => hmm q (List.mem_cons_of_mem h hq))]
    rw [flushHunk_state fp _ _ _ _ _ (splitNL_ne_nil h.content)]
    rw [joinNL_splitNL, joinNL_splitNL]
    simp



theorem foldl_insertHunk_uniform (fp : Str) : ∀ (t : List RawHunk) (acc : List RawHunk),
    (∀ h ∈ t, h.filePath = fp) →
    List.foldl insertHunk [(fp, acc)] t = [(fp, acc ++ t)] := by
  intro t
  induction t with
  | nil => intro acc _; simp
  | cons h t2 ih =>
    intro acc hfp
    have hh : h.filePath = fp := hfp h (by simp)
    rw [List.foldl_cons]
    have hins : insertHunk [(fp, acc)] h = [(fp, acc ++ [h])] := by
      rw [insertHunk, if_pos hh.symm]
    rw [hins, ih (acc ++ [h]) (fun q hq => hfp q (List.mem_cons_of_mem h hq))]
    simp

theorem groupByFile_uniform (rs : List RawHunk) (fp : Str) (hne : rs ≠ [])
    (hfp : ∀ h ∈ rs, h.filePath = fp) : groupByFile rs = [(fp, rs)] := by
  cases rs with
  | nil => exact absurd rfl hne
  | cons h t =>
    have hh : h.filePath = fp := hfp h (by simp)
    rw [groupByFile, List.foldl_cons]
    have hins : insertHunk [] h = [(fp, [h])] := by
      rw [insertHunk, hh]
    rw [hins, foldl_insertHunk_uniform fp t [h] (fun q hq => hfp q (List.mem_cons_of_mem h hq))]
    simp

theorem parse_fileHeader (fp R : Str) (s : PState) (hcur : s.cur = none) :
    List.foldl (parseStep fp) s (fileHeaderLines R) = s := by
  rw [fileHeaderLines]
  simp only [List.foldl_cons, List.foldl_nil]
  rw [parseStep_nocur fp s _ hcur (matchHunkHeader_d _)]
  rw [parseStep_nocur fp s _ hcur (matchHunkHeader_minus _)]
  rw [parseStep_nocur fp s _ hcur (matchHunkHeader_plus _)]

theorem parse_createPatch (rel : Str → Str) (fp : Str) (rs : List RawHunk)
    (hne : rs ≠ []) (hfp : ∀ h ∈ rs, h.filePath = fp)
    (hpp : ∀ h ∈ rs, ∀ l ∈ splitNL h.content, ['+', '+'].isPrefixOf l = false)
    (hmm : ∀ h ∈ rs, ∀ l ∈ splitNL h.originalContent, ['-', '-'].isPrefixOf l = false) :
    parseDiffToHunks (createPatch rel rs) fp =
      rs.map (fun h =>
        ({ filePath := fp, startLine := h.startLine,
           endLine := h.startLine + (splitNL h.content).length,
           content := h.content, originalContent := h.originalContent } : RawHunk)) := by
  rw [createPatch, groupByFile_uniform rs fp hne hfp]
  simp only [List.flatMap_cons, List.flatMap_nil, List.append_nil]
  rw [parseDiffToHunks, List.foldl_append]
  rw [parse_fileHeader fp (rel fp) _ rfl]
  rw [foldl_blocks fp rs _ hpp hmm]
  rfl

theorem flatMap_hunkBlock_norm (fp : Str) (rs : List RawHunk) :
    ((rs.map (fun h =>
        ({ filePath := fp, startLine := h.startLine,
           endLine := h.startLine + (splitNL h.content).length,
           content := h.content, originalContent := h.originalContent } : RawHunk))).flatMap
      hunkBlock) = rs.flatMap hunkBlock := by
  induction rs with
  | nil => rfl
  | cons h t ih =>
    simp only [List.map_cons, List.flatMap_cons, ih]
    rfl

/-! ## Claim theorems -/

/-- C3.  Amended: for diff text in the synthesizer image — one file, the
standard three header lines, per hunk all removed lines before all added
lines and no context lines, with no content line collapsing into a `+++`
or `---` file marker — parsing and re-synthesizing yields byte-identical
patch text (the recomputed header line counts agree with the originals).
-/
theorem c3_roundtrip (rel : Str → Str) (fp : Str) (rs : List RawHunk)
    (hne : rs ≠ []) (hfp : ∀ h ∈ rs, h.filePath = fp)
    (hpp : ∀ h ∈ rs, ∀ l ∈ splitNL h.content, ['+', '+'].isPrefixOf l = false)
    (hmm : ∀ h ∈ rs, ∀ l ∈ splitNL h.originalContent, ['-', '-'].isPrefixOf l = false) :
    createPatch rel (parseDiffToHunks (createPatch rel rs) fp) = createPatch rel rs := by
  rw [parse_createPatch rel fp rs hne hfp hpp hmm]
  have hne2 : rs.map (fun h =>
      ({ filePath := fp, startLine := h.startLine,
         endLine := h.startLine + (splitNL h.content).length,
         content := h.content, originalContent := h.originalContent } : RawHunk)) ≠ [] := by
    simpa using hne
  have hfp2 : ∀ h2 ∈ rs.map (fun h =>
      ({ filePath := fp, startLine := h.startLine,
         endLine := h.startLine + (splitNL h.content).length,
         content := h.content, originalContent := h.originalContent } : RawHunk)),
      h2.filePath = fp := by
    intro h2 hh2
    rcases List.mem_map.mp hh2 with ⟨h, _, rfl⟩
    rfl
  rw [createPatch, groupByFile_uniform _ fp hne2 hfp2]
  rw [createPatch, groupByFile_uniform rs fp hne hfp]
  simp only [List.flatMap_cons, List.flatMap_nil, List.append_nil]
  rw [flatMap_hunkBlock_norm]

/-- C3 counterexample.  On a valid unified diff with a context line,
parse-then-synthesize is not byte-identical to the input even after
erasing the `@@` line-count fields: the context line comes back as a
removed plus an added line, so the outputs differ in length. -/
theorem c3_context_counterexample :
    ¬ ((createPatch (fun s => s) (parseDiffToHunks contextDiffLines ("f".toList))).map
        stripHeaderCounts = contextDiffLines.map stripHeaderCounts) := by
  decide

/-- C3 witness: the round trip evaluated on a one-hunk set. -/
theorem c3_roundtrip_witness :
    ([RawHunk.mk ("f".toList) 10 11 ("z".toList) ("y".toList)] ≠ []) ∧
    (∀ h ∈ [RawHunk.mk ("f".toList) 10 11 ("z".toList) ("y".toList)], h.filePath = "f".toList) ∧
    (∀ h ∈ [RawHunk.mk ("f".toList) 10 11 ("z".toList) ("y".toList)],
      ∀ l ∈ splitNL h.content, ['+', '+'].isPrefixOf l = false) ∧
    (∀ h ∈ [RawHunk.mk ("f".toList) 10 11 ("z".toList) ("y".toList)],
      ∀ l ∈ splitNL h.originalContent, ['-', '-'].isPrefixOf l = false) ∧
    createPatch (fun s => s)
        (parseDiffToHunks
          (createPatch (fun s => s) [RawHunk.mk ("f".toList) 10 11 ("z".toList) ("y".toList)])
          ("f".toList)) =
      createPatch (fun s => s) [RawHunk.mk ("f".toList) 10 11 ("z".toList) ("y".toList)] :=
  ⟨by decide, by decide, by decide, by decide,
    c3_roundtrip (fun s => s) ("f".toList) _ (by decide) (by decide) (by decide) (by decide)⟩

/-- C5.  Amended: when a rescan observes uncommitted changes, every
tracked hunk whose file is absent from the changed-file set (joined
against the workspace root) is gone from the registry afterwards — every
surviving or newly created entry is for a changed file; a rescan that
observes no uncommitted changes instead keeps exactly the group-assigned
hunks, dropping only the unassigned ones. -/
theorem c5_scan_drop_absent (hunks : List Hunk) (changedFiles : List Str) (root : Str)
    (info : Str → ScanInfo) (ids : Nat → Str) (now : Nat) :
    (∀ h ∈ hunks, h.filePath ∉ changedFiles.map (pathJoin root) →
      h ∉ scanExistingChanges hunks true changedFiles root info ids now) ∧
    scanExistingChanges hunks false changedFiles root info ids now =
      hunks.filter (fun h => ¬ h.spaceId = []) := by
  constructor
  · intro h _ habs hmem
    have hpaths : ∀ x ∈ scanExistingChanges hunks true changedFiles root info ids now,
        x.filePath ∈ changedFiles.map (pathJoin root) := by
      intro x hx
      unfold scanExistingChanges at hx
      simp only [Bool.not_true, reduceIte] at hx
      refine scanFold_paths (changedFiles.map (pathJoin root)) root info ids now
        changedFiles _ (fun fp hfp => List.mem_map_of_mem _ hfp) ?_ x hx
      intro y hy
      have := List.mem_filter.mp hy
      simpa using this.2
    exact habs (hpaths h hmem)
  · rfl

/-- C5 counterexample.  A rescan that sees no uncommitted changes has an
empty changed-file set, so by the claim every tracked hunk should go; yet
the group-assigned hunk survives (only unassigned ones are cleared on this
path). -/
theorem c5_assigned_hunk_survives :
    scanExistingChanges [sampleHunkA] false [] [] (fun _ => emptyScanInfo)
        (fun _ => ['N']) 0 = [sampleHunkA] ∧
    sampleHunkA.filePath ∉ ([] : List Str).map (pathJoin []) := by
  constructor
  · rfl
  · simp

/-- C5 witness: with changes reported and an empty changed-file list, the
tracked hunk is dropped by the rescan. -/
theorem c5_scan_drop_absent_witness :
    sampleHunkA ∉ scanExistingChanges [sampleHunkA] true [] [] (fun _ => emptyScanInfo)
        (fun _ => ['N']) 0 :=
  (c5_scan_drop_absent [sampleHunkA] [] [] (fun _ => emptyScanInfo) (fun _ => ['N']) 0).1
    sampleHunkA (by decide) (by decide)

/-- C1.  The claim says switching from an applied space A to a space B
invokes unapply of the hunks of A, then checkout of the branch of B, then
apply of the hunks of B, marking B active.  Evaluating the embedded
`switchSpace` at such a state shows the code only checks out and applies:
the trace has exactly two git calls, no unapply of the hunks of A ever
happens, and no space is marked active (only the lastModified stamp of B
moves).  The README of the repository documents the unapply step, so the
code contradicts its own documentation. -/
theorem c1_switch_trace :
    switchSpace [spaceA, spaceB] [hunkH1, hunkH2] (fun s => s) ['b'] true true 7 =
      { spaces := [spaceA, { spaceB with lastModified := 7 }],
        trace := [GitEvent.checkout ("feat/x".toList),
                  GitEvent.applyPatch (createPatch (fun s => s) [hunkH2.toRaw])],
        error := none } ∧
    GitEvent.applyPatch (unapplyPatch (fun s => s) [hunkH1]) ∉
      (switchSpace [spaceA, spaceB] [hunkH1, hunkH2] (fun s => s) ['b'] true true 7).trace := by
  decide

/-- C2.  The claim says a rescan whose parsed hunks still contain the
tracked (filePath, startLine) pair keeps the id and the group of the
tracked hunk.  Evaluating the embedded `detectHunksForDocument` at such a
rescan shows the reconciled hunk gets a fresh id and an empty group: the
code filters out the old hunks of the file before running the lookup that
its own comment says preserves the assignment, so the lookup never finds
them. -/
theorem c2_rescan_loses_identity :
    detectHunksForDocument [trackedHunk] ['f'] (some rescanDiffLines)
        (some FileStatus.modified) (fun _ => ['N']) 5 =
      [{ id := ['N'], filePath := ['f'], startLine := 10, endLine := 11, content := ['z'],
         originalContent := ['y'], spaceId := [], timestamp := 5,
         status := some FileStatus.modified }] ∧
    ¬ (['N'] : Str) = trackedHunk.id ∧ ¬ ([] : Str) = trackedHunk.spaceId := by
  decide

/-- C4.  Inside an open hunk region of `parseDiffToHunks`: a context line
(prefix space) is appended to both accumulators and advances the line
counter, an added line (prefix plus, excluding the file marker) is
appended only to the content accumulator and advances the counter, a
removed line (prefix minus, excluding the file marker) is appended only to
the original-content accumulator without advancing the counter, and the
hunk emitted when the region closes carries the counter value as its
endLine. -/
theorem c4_parse_line_classes (filePath : Str) (s : PState) (line : Str) (st : Nat)
    (hcur : s.cur = some st) :
    (jsStartsWith line [' '] = true →
      parseStep filePath s line =
        { s with hunkContent := s.hunkContent ++ [line.drop 1],
                 originalContent := s.originalContent ++ [line.drop 1],
                 currentLine := s.currentLine + 1 }) ∧
    (jsStartsWith line ['+'] = true → jsStartsWith line ['+', '+', '+'] = false →
      parseStep filePath s line =
        { s with hunkContent := s.hunkContent ++ [line.drop 1],
                 currentLine := s.currentLine + 1 }) ∧
    (jsStartsWith line ['-'] = true → jsStartsWith line ['-', '-', '-'] = false →
      parseStep filePath s line =
        { s with originalContent := s.originalContent ++ [line.drop 1] }) ∧
    (s.hunkContent ≠ [] →
      flushHunk filePath s =
        s.hunks ++ [{ filePath := filePath, startLine := st, endLine := s.currentLine,
                      content := joinNL s.hunkContent,
                      originalContent := joinNL s.originalContent }]) := by
  refine ⟨?_, ?_, ?_, ?_⟩
  · intro hsp
    obtain ⟨t, rfl⟩ := jsStartsWith_single hsp
    have hplus : jsStartsWith (' ' :: t) ['+'] = false := by
      simp [jsStartsWith, List.isPrefixOf]
    have hminus : jsStartsWith (' ' :: t) ['-'] = false := by
      simp [jsStartsWith, List.isPrefixOf]
    simp [parseStep, hcur, hplus, hminus, hsp, matchHunkHeader_space]
  · intro hp hppp
    obtain ⟨t, rfl⟩ := jsStartsWith_single hp
    simp [parseStep, hcur, hp, hppp, matchHunkHeader_plus]
  · intro hm hmmm
    obtain ⟨t, rfl⟩ := jsStartsWith_single hm
    have hplus : jsStartsWith ('-' :: t) ['+'] = false := by
      simp [jsStartsWith, List.isPrefixOf]
    simp [parseStep, hcur, hplus, hm, hmmm, matchHunkHeader_minus]
  · intro hne
    simp [flushHunk, hcur, hne]

/-- C4 witness: the context-line case evaluated at a concrete open
region. -/
theorem c4_parse_line_classes_witness :
    parseStep ['f'] (PState.mk [] (some 3) 5 [['x']] []) [' ', 'q'] =
      PState.mk [] (some 3) 6 [['x'], ['q']] [['q']] := by
  have h := (c4_parse_line_classes ['f'] (PState.mk [] (some 3) 5 [['x']] [])
    [' ', 'q'] 3 rfl).1 (by decide)
  simpa using h

/-- C6.  `removeHunk` with the discard side effect: when the working-tree
mutation succeeds the tracked hunk is dropped from the registry, and when
it fails the exception propagates with the registry left exactly as it
was. -/
theorem c6_discard_registry (hunks : List Hunk) (hunkId : Str) (dres : Except Str Unit)
    (h0 : Hunk) (hfind : hunks.find? (fun h => h.id = hunkId) = some h0) :
    (dres = Except.ok () →
      removeHunk hunks hunkId true dres =
        { hunks := hunks.filter (fun h => ¬ h.id = hunkId), error := none } ∧
      ∀ x ∈ (removeHunk hunks hunkId true dres).hunks, ¬ x.id = hunkId) ∧
    (∀ e, dres = Except.error e →
      removeHunk hunks hunkId true dres = { hunks := hunks, error := some e }) := by
  constructor
  · rintro rfl
    constructor
    · simp [removeHunk, hfind]
    · intro x hx
      simp [removeHunk, hfind] at hx
      exact hx.2
  · rintro e rfl
    simp [removeHunk, hfind]

/-- C6 witness: a successful discard of the only tracked hunk empties the
registry. -/
theorem c6_discard_registry_witness :
    removeHunk [sampleHunkA] ['h'] true (Except.ok ()) = { hunks := [], error := none } := by
  have h := ((c6_discard_registry [sampleHunkA] ['h'] (Except.ok ()) sampleHunkA
    (by decide)).1 rfl).1
  simpa using h

/-- C7.  `deleteSpace` on an existing space: with zero owned hunks the
space is removed unconditionally; with owned hunks and no disposition
chosen (either prompt cancelled) nothing is mutated; and whenever the
space is gone from the resulting registry, the resulting hunk registry
owns nothing under its id. -/
theorem c7_delete_space (spaces : List Space) (hunks : List Hunk) (spaceId : Str)
    (disp : DeleteDisposition) (s0 : Space)
    (hfind : spaces.find? (fun s => s.id = spaceId) = some s0)
    (hmv : ∀ t, disp = DeleteDisposition.move (some t) → ¬ t = spaceId) :
    (getHunksForSpace hunks spaceId = [] →
      deleteSpace spaces hunks spaceId disp =
        (spaces.filter (fun s => ¬ s.id = spaceId), hunks)) ∧
    (getHunksForSpace hunks spaceId ≠ [] →
      disp = DeleteDisposition.cancelled ∨ disp = DeleteDisposition.move none →
      deleteSpace spaces hunks spaceId disp = (spaces, hunks)) ∧
    ((deleteSpace spaces hunks spaceId disp).1.find? (fun s => s.id = spaceId) = none →
      getHunksForSpace ((deleteSpace spaces hunks spaceId disp).2) spaceId = []) := by
  refine ⟨?_, ?_, ?_⟩
  · intro h0
    simp [deleteSpace, hfind, h0]
  · intro h1 h2
    have hlen : 0 < (getHunksForSpace hunks spaceId).length := List.length_pos.mpr h1
    rcases h2 with rfl | rfl <;> simp [deleteSpace, hfind, hlen]
  · intro hgone
    by_cases h0 : getHunksForSpace hunks spaceId = []
    · simpa [deleteSpace, hfind, h0] using h0
    · have hlen : 0 < (getHunksForSpace hunks spaceId).length := List.length_pos.mpr h0
      cases disp with
      | cancelled =>
        simp [deleteSpace, hfind, hlen] at hgone
      | discard =>
        simp [deleteSpace, hfind, hlen] at hgone ⊢
        exact getHunksForSpace_delete hunks spaceId
      | move target =>
        cases target with
        | none =>
          simp [deleteSpace, hfind, hlen] at hgone
        | some t =>
          simp [deleteSpace, hfind, hlen] at hgone ⊢
          exact getHunksForSpace_reassign hunks spaceId t (hmv t rfl)

/-- C7 witness: deleting a space that owns no hunks removes it outright. -/
theorem c7_delete_space_witness :
    deleteSpace [spaceA] [] ['a'] DeleteDisposition.cancelled = ([], []) := by
  have h := (c7_delete_space [spaceA] [] ['a'] DeleteDisposition.cancelled spaceA
    (by decide) (fun t ht => nomatch ht)).1 rfl
  simpa using h

/-- C8 counterexample.  The claim says no sequence of create and delete
operations leaves an empty persisted group list.  Deleting the sole
default space right after initialization does exactly that: the space owns
no hunks, so the deletion goes through and the empty list is saved. -/
theorem c8_delete_last_space :
    (deleteSpace (initializeSpaces [] ['m'] 0) [] ['m'] DeleteDisposition.cancelled).1 = [] := by
  decide

/-- C8 amended.  A default group is guaranteed only at initialization:
`initialize` always leaves a non-empty group list (seeding Main when the
loaded list is empty) and `createSpace` preserves non-emptiness, but
nothing stops `deleteSpace` from removing the last group. -/
theorem c8_nonempty_after_initialize :
    (∀ (loaded : List Space) (newId : Str) (now : Nat),
      initializeSpaces loaded newId now ≠ []) ∧
    (∀ (spaces : List Space) (name goal : Str) (type : SpaceType)
        (branchName : Option Str) (newId : Str) (now : Nat),
      createSpace spaces name goal type branchName newId now ≠ []) := by
  constructor
  · intro loaded newId now
    unfold initializeSpaces
    split
    · simp [createSpace]
    · rename_i hlen
      intro hnil
      exact hlen (by simp [hnil])
  · intro spaces name goal type branchName newId now
    simp [createSpace]

/-- C9.  Swapping content and original content twice and then
synthesizing gives exactly the patch of the original hunk set. -/
theorem c9_reverse_reverse_patch (rel : Str → Str) (hunks : List Hunk) :
    createPatch rel ((reverseHunks (reverseHunks hunks)).map Hunk.toRaw) =
    createPatch rel (hunks.map Hunk.toRaw) := by
  rw [reverseHunks_reverseHunks]

/-- C10.  Bulk reassignment from one group to another: the registry keeps
the same length, hunks outside the source group are untouched, and hunks
of the source group change only their group id. -/
theorem c10_reassign_frame (hunks : List Hunk) (fromSpaceId toSpaceId : Str) :
    (reassignHunks hunks fromSpaceId toSpaceId).length = hunks.length ∧
    ∀ i (hi : i < hunks.length) (hi2 : i < (reassignHunks hunks fromSpaceId toSpaceId).length),
      (¬ (hunks.get ⟨i, hi⟩).spaceId = fromSpaceId →
        (reassignHunks hunks fromSpaceId toSpaceId).get ⟨i, hi2⟩ = hunks.get ⟨i, hi⟩) ∧
      ((hunks.get ⟨i, hi⟩).spaceId = fromSpaceId →
        ((reassignHunks hunks fromSpaceId toSpaceId).get ⟨i, hi2⟩).spaceId = toSpaceId ∧
        ((reassignHunks hunks fromSpaceId toSpaceId).get ⟨i, hi2⟩).id = (hunks.get ⟨i, hi⟩).id ∧
        ((reassignHunks hunks fromSpaceId toSpaceId).get ⟨i, hi2⟩).filePath
          = (hunks.get ⟨i, hi⟩).filePath ∧
        ((reassignHunks hunks fromSpaceId toSpaceId).get ⟨i, hi2⟩).startLine
          = (hunks.get ⟨i, hi⟩).startLine ∧
        ((reassignHunks hunks fromSpaceId toSpaceId).get ⟨i, hi2⟩).endLine
          = (hunks.get ⟨i, hi⟩).endLine ∧
        ((reassignHunks hunks fromSpaceId toSpaceId).get ⟨i, hi2⟩).content
          = (hunks.get ⟨i, hi⟩).content ∧
        ((reassignHunks hunks fromSpaceId toSpaceId).get ⟨i, hi2⟩).originalContent
          = (hunks.get ⟨i, hi⟩).originalContent ∧
        ((reassignHunks hunks fromSpaceId toSpaceId).get ⟨i, hi2⟩).timestamp
          = (hunks.get ⟨i, hi⟩).timestamp ∧
        ((reassignHunks hunks fromSpaceId toSpaceId).get ⟨i, hi2⟩).status
          = (hunks.get ⟨i, hi⟩).status) := by
  constructor
  · simp [reassignHunks]
  · intro i hi hi2
    have hget : (reassignHunks hunks fromSpaceId toSpaceId).get ⟨i, hi2⟩ =
        if (hunks.get ⟨i, hi⟩).spaceId = fromSpaceId then
          { hunks.get ⟨i, hi⟩ with spaceId := toSpaceId }
        else hunks.get ⟨i, hi⟩ := by
      simp [reassignHunks, List.get_eq_getElem]
    constructor
    · intro hne
      rw [hget, if_neg hne]
    · intro heq
      rw [hget, if_pos heq]
      simp

/-- C10 witness: a two-hunk registry reassigned from group a to group b. -/
theorem c10_reassign_frame_witness :
    (reassignHunks [hunkH1, hunkH2] ['a'] ['b']).length = 2 ∧
    (reassignHunks [hunkH1, hunkH2] ['a'] ['b']).get ⟨1, by decide⟩ = hunkH2 ∧
    ((reassignHunks [hunkH1, hunkH2] ['a'] ['b']).get ⟨0, by decide⟩).spaceId = ['b'] := by
  refine ⟨(c10_reassign_frame [hunkH1, hunkH2] ['a'] ['b']).1, ?_, ?_⟩
  · exact ((c10_reassign_frame [hunkH1, hunkH2] ['a'] ['b']).2 1 (by decide) (by decide)).1
      (by decide)
  · exact (((c10_reassign_frame [hunkH1, hunkH2] ['a'] ['b']).2 0 (by decide) (by decide)).2
      (by decide)).1

end GitSpaces
